import Mathlib

/-!
# Verification of the minitorch CUDA tensor-operation kernels

This file shallowly embeds the tensor kernels of `minitorch/cuda_ops.py`
(elementwise map and zip, block tree reduction, tiled batched matrix
multiplication, and the host-side dispatch wrappers in `CudaOps`) and proves
the specified properties about them.

Modelling conventions:
* Scalars are modelled as rationals `ℚ` (the kernels' float arithmetic,
  taken exactly).
* A tensor view is a triple of flat storage, shape and strides, as in the
  Python `Tensor.tuple()` protocol.
* Each CUDA thread is modelled by the write it performs on the output
  storage (`Option (position, value)`); a kernel launch folds the writes of
  all grid threads over the initial output storage.  Block-shared staging
  buffers are resolved to the value their unique writing thread stores in
  them between barriers.
* The index-arithmetic helpers `to_index`, `index_to_position`,
  `broadcast_index`, `shape_broadcast` and the contiguous strides of
  `zeros` live in `minitorch/tensor_data.py`, which is not part of the
  sources at hand; they are modelled from the spec (§3, §4.1), as noted on
  each definition.
-/

namespace Minitorch

/-- Shapes are per-dimension extents. -/
abbrev Shape := List ℕ

/-- Strides are per-dimension flat-offset multipliers (0 marks broadcast). -/
abbrev Strides := List ℕ

/-- A multi-dimensional coordinate. -/
abbrev Index := List ℕ

/-- Flat tensor storage of rational scalars. -/
abbrev Storage := List ℚ

/-- A strided tensor view: the `(storage, shape, strides)` triple passed to
kernels via `Tensor.tuple()`. -/
structure TensorView where
  storage : Storage
  shape : Shape
  strides : Strides

/-- Modelled from the spec (§4.1, `tensor_data.index_to_position`):
dot product of coordinate and strides. -/
def index_to_position (index : Index) (strides : Strides) : ℕ :=
  (List.zipWith (· * ·) index strides).sum

/-- The element a view holds at a coordinate (reads out of physical range
give 0; the kernels never perform such reads on valid launches). -/
def elemAt (t : TensorView) (c : Index) : ℚ :=
  t.storage.getD (index_to_position c t.strides) 0

/-- Modelled from the spec (§4.1, `tensor_data.to_index`): the successive
division/modulo loop running over the reversed shape (last dimension
first). -/
def toIndexRev (pos : ℕ) : List ℕ → List ℕ
  | [] => []
  | s :: rest => (pos % s) :: toIndexRev (pos / s) rest

/-- Modelled from the spec (§4.1, `tensor_data.to_index`): decompose a flat
position into a coordinate by successive integer division/modulo from the
last dimension to the first (row-major decomposition). -/
def to_index (pos : ℕ) (shape : Shape) : Index :=
  (toIndexRev pos shape.reverse).reverse

/-- Helper for `contiguous_strides`, built over the reversed shape: the
innermost stride is 1 and each further stride multiplies by the extents
passed so far. -/
def contigRev : List ℕ → List ℕ
  | [] => []
  | s :: rest => 1 :: (contigRev rest).map (s * ·)

/-- Modelled from the spec (§2, §8, `tensor_data.strides_from_shape` as used
by `zeros`): standard row-major contiguous strides, i.e. each dimension's
stride is the product of all later extents. -/
def contiguous_strides (shape : Shape) : Strides :=
  (contigRev shape.reverse).reverse

example : contiguous_strides [2, 3, 4] = [12, 4, 1] := by decide

/-- Modelled from the spec (§4.1, `tensor_data.broadcast_index`):
right-align the small shape under the big coordinate, copy the coordinate
where the small extent exceeds 1 and collapse broadcast dimensions to 0;
leading dimensions only present in the big shape are dropped. -/
def broadcast_index (big_index : Index) (big_shape small_shape : Shape) : Index :=
  List.zipWith (fun c s => if 1 < s then c else 0)
    (big_index.drop (big_shape.length - small_shape.length)) small_shape

/-- Modelled from the spec (§3, `tensor_data.shape_broadcast`): right-align
the shapes padding with leading 1s, require every aligned pair equal or
containing a 1, and take the pointwise max. -/
def shape_broadcast (a b : Shape) : Option Shape :=
  let n := max a.length b.length
  let a' := List.replicate (n - a.length) 1 ++ a
  let b' := List.replicate (n - b.length) 1 ++ b
  if (List.zip a' b').all (fun p => p.1 == p.2 || p.1 == 1 || p.2 == 1) then
    some (List.zipWith max a' b')
  else
    none

example : shape_broadcast [3, 1] [1, 4] = some [3, 4] := by decide

/-! ## Index arithmetic lemmas -/

theorem length_toIndexRev (pos : ℕ) (rs : List ℕ) :
    (toIndexRev pos rs).length = rs.length := by
  induction rs generalizing pos with
  | nil => rfl
  | cons s rest ih => simp [toIndexRev, ih]

theorem length_contigRev (rs : List ℕ) : (contigRev rs).length = rs.length := by
  induction rs with
  | nil => rfl
  | cons s rest ih => simp [contigRev, ih]

theorem length_to_index (pos : ℕ) (S : Shape) : (to_index pos S).length = S.length := by
  simp [to_index, length_toIndexRev]

theorem length_contiguous_strides (S : Shape) :
    (contiguous_strides S).length = S.length := by
  simp [contiguous_strides, length_contigRev]

/-- Dot product of coordinate and strides, the core of `index_to_position`. -/
def dot (a b : List ℕ) : ℕ := (List.zipWith (· * ·) a b).sum

theorem index_to_position_eq_dot (c : Index) (s : Strides) :
    index_to_position c s = dot c s := rfl

theorem dot_map_mul_right (k : ℕ) : ∀ (a b : List ℕ),
    dot a (b.map (k * ·)) = k * dot a b := by
  intro a
  induction a with
  | nil => intro b; simp [dot]
  | cons x xs ih =>
    intro b
    cases b with
    | nil => simp [dot]
    | cons y ys =>
      simp only [dot, List.zipWith_cons_cons, List.sum_cons, List.map_cons] at *
      rw [ih ys]
      ring

theorem dot_reverse (a : List ℕ) : ∀ (b : List ℕ), a.length = b.length →
    dot a.reverse b.reverse = dot a b := by
  induction a with
  | nil =>
    intro b h
    cases b with
    | nil => rfl
    | cons y ys => simp at h
  | cons x xs ih =>
    intro b h
    cases b with
    | nil => simp at h
    | cons y ys =>
      simp only [List.length_cons] at h
      have hlen : xs.length = ys.length := by omega
      simp only [List.reverse_cons]
      unfold dot
      rw [List.zipWith_append _ _ _ _ _ (by simp [hlen]), List.sum_append]
      have h1 : (List.zipWith (· * ·) [x] [y]).sum = x * y := by simp
      have h2 : (List.zipWith (· * ·) xs.reverse ys.reverse).sum
          = (List.zipWith (· * ·) xs ys).sum := ih ys hlen
      simp only [List.zipWith_cons_cons, List.sum_cons, List.zipWith_nil_left,
        List.sum_nil, Nat.add_zero, h1, h2]
      ring

/-- `pos % s + s * ((pos / s) % m) = pos % (s * m)`: the split of a residue
along a mixed radix. -/
theorem mod_mul_split (pos s m : ℕ) :
    pos % s + s * (pos / s % m) = pos % (s * m) := by
  rcases Nat.eq_zero_or_pos s with hs | hs
  · subst hs; simp
  rcases Nat.eq_zero_or_pos m with hm | hm
  · subst hm
    simp only [Nat.mod_zero, Nat.mul_zero]
    exact Nat.mod_add_div pos s
  have h1 : pos = s * m * (pos / (s * m)) + (pos % s + s * (pos / s % m)) := by
    conv_lhs => rw [← Nat.mod_add_div pos s, ← Nat.mod_add_div (pos / s) m]
    rw [Nat.div_div_eq_div_mul]
    ring
  have hps : pos % s < s := Nat.mod_lt pos hs
  have hpm : pos / s % m < m := Nat.mod_lt (pos / s) hm
  have h2 : pos % s + s * (pos / s % m) < s * m := by
    calc pos % s + s * (pos / s % m) < s + s * (pos / s % m) := by omega
    _ = s * (pos / s % m + 1) := by ring
    _ ≤ s * m := Nat.mul_le_mul_left s (by omega)
  have h3 : pos % (s * m) = pos % s + s * (pos / s % m) := by
    conv_lhs => rw [h1]
    rw [Nat.add_comm, Nat.add_mul_mod_self_left]
    exact Nat.mod_eq_of_lt h2
  exact h3.symm

/-- The reversed-shape decomposition dotted with the reversed contiguous
strides recovers the flat position modulo the total size. -/
theorem dot_toIndexRev (rs : List ℕ) : ∀ (p : ℕ),
    dot (toIndexRev p rs) (contigRev rs) = p % rs.prod := by
  induction rs with
  | nil => intro p; simp [toIndexRev, contigRev, dot, Nat.mod_one]
  | cons s rest ih =>
    intro p
    simp only [toIndexRev, contigRev, List.prod_cons]
    unfold dot
    simp only [List.zipWith_cons_cons, List.sum_cons, Nat.mul_one]
    rw [← dot, dot_map_mul_right, ih]
    exact mod_mul_split p s rest.prod

/-- Round trip: decoding a flat position and re-encoding it with the
contiguous strides of the same shape is the identity on `[0, size)`. -/
theorem index_to_position_to_index (S : Shape) (i : ℕ) (h : i < S.prod) :
    index_to_position (to_index i S) (contiguous_strides S) = i := by
  rw [index_to_position_eq_dot, to_index, contiguous_strides,
    dot_reverse _ _ (by rw [length_toIndexRev, length_contigRev]),
    dot_toIndexRev, List.prod_reverse, Nat.mod_eq_of_lt h]

/-! ## Valid coordinates and the inverse round trip

A coordinate `c` is valid for a shape `S` when `List.Forall₂ (· < ·) c S`:
same length and pointwise within the extents. -/

theorem dot_contigRev_lt {cr rs : List ℕ} (h : List.Forall₂ (· < ·) cr rs) :
    dot cr (contigRev rs) < rs.prod := by
  induction h with
  | nil => simp [dot, contigRev]
  | @cons a b l₁ l₂ h1 h2 ih =>
    simp only [contigRev, List.prod_cons]
    unfold dot
    simp only [List.zipWith_cons_cons, List.sum_cons, Nat.mul_one]
    rw [← dot, dot_map_mul_right]
    calc a + b * dot l₁ (contigRev l₂) < b + b * dot l₁ (contigRev l₂) := by omega
    _ = b * (dot l₁ (contigRev l₂) + 1) := by ring
    _ ≤ b * l₂.prod := Nat.mul_le_mul_left b (by omega)

theorem toIndexRev_dot {cr rs : List ℕ} (h : List.Forall₂ (· < ·) cr rs) :
    toIndexRev (dot cr (contigRev rs)) rs = cr := by
  induction h with
  | nil => rfl
  | @cons a b l₁ l₂ h1 h2 ih =>
    simp only [contigRev]
    unfold dot
    simp only [List.zipWith_cons_cons, List.sum_cons, Nat.mul_one]
    rw [← dot, dot_map_mul_right]
    have hb : 0 < b := lt_of_le_of_lt (Nat.zero_le a) h1
    unfold toIndexRev
    have hmod : (a + b * dot l₁ (contigRev l₂)) % b = a := by
      rw [Nat.add_mul_mod_self_left]
      exact Nat.mod_eq_of_lt h1
    have hdiv : (a + b * dot l₁ (contigRev l₂)) / b = dot l₁ (contigRev l₂) := by
      rw [Nat.add_mul_div_left _ _ hb, Nat.div_eq_of_lt h1, Nat.zero_add]
    rw [hmod, hdiv, ih]

theorem dot_contiguous_eq_rev (S : Shape) (c : Index) (hlen : c.length = S.length) :
    dot c (contiguous_strides S) = dot c.reverse (contigRev S.reverse) := by
  conv_lhs => rw [← c.reverse_reverse]
  rw [contiguous_strides,
    dot_reverse _ _ (by simp [length_contigRev, hlen])]

/-- Re-encoding a valid coordinate with the contiguous strides and decoding
it again is the identity. -/
theorem to_index_index_to_position {S : Shape} {c : Index}
    (h : List.Forall₂ (· < ·) c S) :
    to_index (index_to_position c (contiguous_strides S)) S = c := by
  have hlen : c.length = S.length := h.length_eq
  have hrev : List.Forall₂ (· < ·) c.reverse S.reverse := List.rel_reverse h
  rw [index_to_position_eq_dot, dot_contiguous_eq_rev S c hlen, to_index,
    toIndexRev_dot hrev, List.reverse_reverse]

/-- The flat position of a valid coordinate is within the total size. -/
theorem index_to_position_lt {S : Shape} {c : Index}
    (h : List.Forall₂ (· < ·) c S) :
    index_to_position c (contiguous_strides S) < S.prod := by
  have hlen : c.length = S.length := h.length_eq
  have hrev : List.Forall₂ (· < ·) c.reverse S.reverse := List.rel_reverse h
  rw [index_to_position_eq_dot, dot_contiguous_eq_rev S c hlen,
    ← List.prod_reverse]
  exact dot_contigRev_lt hrev

/-- Every entry of a decoded coordinate is within its (nonzero) extent. -/
theorem to_index_forall₂ (p : ℕ) (S : Shape) :
    List.Forall₂ (fun c s => s ≠ 0 → c < s) (to_index p S) S := by
  have key : ∀ (rs : List ℕ) (pos : ℕ),
      List.Forall₂ (fun c s => s ≠ 0 → c < s) (toIndexRev pos rs) rs := by
    intro rs
    induction rs with
    | nil => intro pos; exact List.Forall₂.nil
    | cons s rest ih =>
      intro pos
      exact List.Forall₂.cons
        (fun hs => Nat.mod_lt _ (Nat.pos_of_ne_zero hs)) (ih _)
  rw [to_index]
  have h2 := List.rel_reverse (key S.reverse p)
  rwa [List.reverse_reverse] at h2

theorem forall₂_getD {R : ℕ → ℕ → Prop} {l m : List ℕ}
    (h : List.Forall₂ R l m) :
    ∀ d, d < m.length → R (l.getD d 0) (m.getD d 0) := by
  induction h with
  | nil => intro d hd; simp at hd
  | cons h1 h2 ih =>
    intro d hd
    cases d with
    | zero => simpa using h1
    | succ d' =>
      simp only [List.getD_cons_succ]
      exact ih d' (by simpa using hd)

theorem set_getD_self {α : Type} (d : α) : ∀ (l : List α) (i : ℕ),
    l.set i (l.getD i d) = l := by
  intro l
  induction l with
  | nil => intro i; rfl
  | cons x xs ih =>
    intro i
    cases i with
    | zero => rfl
    | succ n =>
      simp only [List.getD_cons_succ]
      show x :: xs.set n (xs.getD n d) = x :: xs
      rw [ih]

theorem getD_set_self {α : Type} (l : List α) (i : ℕ) (v d : α)
    (h : i < l.length) : (l.set i v).getD i d = v := by
  simp [List.getD_eq_getElem?_getD, List.getElem?_set_self h]

theorem getD_set_ne {α : Type} (l : List α) (i j : ℕ) (v d : α) (h : i ≠ j) :
    (l.set i v).getD j d = l.getD j d := by
  simp [List.getD_eq_getElem?_getD, List.getElem?_set_ne h]

/-! ## Kernel launches as folds of per-thread writes -/

/-- Apply one optional `(position, value)` write to a flat storage. -/
def applyWrite (st : Storage) (w : Option (ℕ × ℚ)) : Storage :=
  match w with
  | some pv => st.set pv.1 pv.2
  | none => st

/-- Run all threads of a grid, in order, applying each thread's write to the
output storage.  The kernels' threads write to pairwise distinct output
positions, so this order is immaterial, mirroring the unordered CUDA
grid. -/
def runWrites {α : Type} (wr : α → Option (ℕ × ℚ)) (l : List α) (st : Storage) :
    Storage :=
  l.foldl (fun s x => applyWrite s (wr x)) st

theorem applyWrite_some (st : Storage) (pv : ℕ × ℚ) :
    applyWrite st (some pv) = st.set pv.1 pv.2 := rfl

theorem applyWrite_none (st : Storage) : applyWrite st none = st := rfl

theorem length_applyWrite (st : Storage) (w : Option (ℕ × ℚ)) :
    (applyWrite st w).length = st.length := by
  cases w with
  | none => rfl
  | some pv => rw [applyWrite_some]; simp

theorem length_runWrites {α : Type} (wr : α → Option (ℕ × ℚ)) :
    ∀ (l : List α) (st : Storage), (runWrites wr l st).length = st.length := by
  intro l
  induction l with
  | nil => intro st; rfl
  | cons x xs ih =>
    intro st
    rw [runWrites, List.foldl_cons]
    rw [show (List.foldl (fun s y => applyWrite s (wr y)) (applyWrite st (wr x)) xs)
        = runWrites wr xs (applyWrite st (wr x)) from rfl]
    rw [ih, length_applyWrite]

/-- If every write to position `p` in the grid stores `v` and the storage
already holds `v` there, it still holds `v` after the launch. -/
theorem runWrites_getD_stable {α : Type} (wr : α → Option (ℕ × ℚ)) (p : ℕ)
    (v : ℚ) : ∀ (l : List α) (st : Storage), p < st.length →
    (∀ x ∈ l, ∀ w, wr x = some (p, w) → w = v) →
    st.getD p 0 = v →
    (runWrites wr l st).getD p 0 = v := by
  intro l
  induction l with
  | nil => intro st _ _ h0; exact h0
  | cons x xs ih =>
    intro st hlen hall h0
    rw [runWrites, List.foldl_cons]
    rw [show (List.foldl (fun s y => applyWrite s (wr y)) (applyWrite st (wr x)) xs)
        = runWrites wr xs (applyWrite st (wr x)) from rfl]
    apply ih
    · rw [length_applyWrite]; exact hlen
    · intro y hy w hw
      exact hall y (List.mem_cons_of_mem x hy) w hw
    · cases hwx : wr x with
      | none => rw [applyWrite_none]; exact h0
      | some pv =>
        rw [applyWrite_some]
        by_cases hp : pv.1 = p
        · have hv : pv.2 = v := by
            apply hall x (List.mem_cons_self x xs) pv.2
            rw [hwx, ← hp]
          rw [hp, hv]
          exact getD_set_self st p v 0 hlen
        · rw [getD_set_ne _ _ _ _ _ hp]
          exact h0

/-- If some grid thread writes `(p, v)` and every grid write to `p` stores
`v`, the launched storage holds `v` at `p`. -/
theorem runWrites_getD {α : Type} (wr : α → Option (ℕ × ℚ)) (p : ℕ) (v : ℚ) :
    ∀ (l : List α) (st : Storage), p < st.length →
    (∀ x ∈ l, ∀ w, wr x = some (p, w) → w = v) →
    (∃ x ∈ l, ∃ w, wr x = some (p, w)) →
    (runWrites wr l st).getD p 0 = v := by
  intro l
  induction l with
  | nil =>
    rintro st _ _ ⟨x, hx, _⟩
    simp at hx
  | cons x xs ih =>
    intro st hlen hall hex
    rw [runWrites, List.foldl_cons]
    rw [show (List.foldl (fun s y => applyWrite s (wr y)) (applyWrite st (wr x)) xs)
        = runWrites wr xs (applyWrite st (wr x)) from rfl]
    by_cases hwx : ∃ w, wr x = some (p, w)
    · obtain ⟨w, hw⟩ := hwx
      have hv : w = v := hall x (List.mem_cons_self x xs) w hw
      subst hv
      apply runWrites_getD_stable
      · rw [length_applyWrite]; exact hlen
      · intro y hy w' hw'
        exact hall y (List.mem_cons_of_mem x hy) w' hw'
      · rw [hw, applyWrite_some]
        exact getD_set_self st p w 0 hlen
    · obtain ⟨y, hy, w, hw⟩ := hex
      have hyxs : y ∈ xs := by
        rcases List.mem_cons.mp hy with h | h
        · exact absurd ⟨w, h ▸ hw⟩ hwx
        · exact h
      apply ih
      · rw [length_applyWrite]; exact hlen
      · intro z hz w' hw'
        exact hall z (List.mem_cons_of_mem x hz) w' hw'
      · exact ⟨y, hyxs, w, hw⟩

/-- Total threads spawned for a linear launch of `n` elements: blocks of 32
threads, rounded up (`THREADS_PER_BLOCK = 32` in `cuda_ops.py`). -/
def gridSize (n : ℕ) : ℕ := ((n + 31) / 32) * 32

theorem le_gridSize (n : ℕ) : n ≤ gridSize n := by
  unfold gridSize
  omega

/-- A linear launch whose thread `y < n` writes `(y, val y)` and whose
remaining threads are idle fills position `p < n` with `val p`. -/
theorem runRange_getD (n gsz : ℕ) (val : ℕ → ℚ) (wr : ℕ → Option (ℕ × ℚ))
    (hg : n ≤ gsz)
    (hwr : ∀ y, y < gsz → wr y = if y < n then some (y, val y) else none)
    (p : ℕ) (hp : p < n) :
    (runWrites wr (List.range gsz) (List.replicate n (0 : ℚ))).getD p 0 = val p := by
  apply runWrites_getD
  · simpa using hp
  · intro y hy w hw
    have hylt : y < gsz := List.mem_range.mp hy
    rw [hwr y hylt] at hw
    by_cases hyn : y < n
    · rw [if_pos hyn] at hw
      have hpair : (y, val y) = (p, w) := Option.some.inj hw
      have hyp : y = p := congrArg Prod.fst hpair
      have hval : val y = w := congrArg Prod.snd hpair
      rw [← hval, hyp]
    · rw [if_neg hyn] at hw
      exact Option.noConfusion hw
  · refine ⟨p, List.mem_range.mpr (lt_of_lt_of_le hp hg), val p, ?_⟩
    rw [hwr p (lt_of_lt_of_le hp hg), if_pos hp]

/-! ## Elementwise kernels (from `cuda_ops.py`, `tensor_map._map` and
`tensor_zip._zip`, and the host wrappers `CudaOps.map` / `CudaOps.zip`) -/

/-- Global buffers a kernel thread can address. -/
inductive MemTarget
  | outBuf
  | aBuf
  | bBuf
deriving DecidableEq

/-- Embedding of one `_map` kernel thread (cuda_ops.py lines 164-183): the
global-memory writes thread `i` performs, tagged by the buffer written.
The body converts `i` to an output coordinate, broadcasts it into the input
shape, and stores `fn(in_storage[...])` at the output position — only under
the `i < out_size` guard, and only into `out`. -/
def mapThreadWrites (f : ℚ → ℚ) (out_shape : Shape) (out_strides : Strides)
    (out_size : ℕ) (in_storage : Storage) (in_shape : Shape)
    (in_strides : Strides) (i : ℕ) : List (MemTarget × ℕ × ℚ) :=
  if i < out_size then
    [(MemTarget.outBuf, index_to_position (to_index i out_shape) out_strides,
      f (in_storage.getD
          (index_to_position
            (broadcast_index (to_index i out_shape) out_shape in_shape)
            in_strides) 0))]
  else []

/-- Embedding of one `_zip` kernel thread (cuda_ops.py lines 207-231). -/
def zipThreadWrites (f : ℚ → ℚ → ℚ) (out_shape : Shape) (out_strides : Strides)
    (out_size : ℕ) (a_storage : Storage) (a_shape : Shape) (a_strides : Strides)
    (b_storage : Storage) (b_shape : Shape) (b_strides : Strides) (i : ℕ) :
    List (MemTarget × ℕ × ℚ) :=
  if i < out_size then
    [(MemTarget.outBuf, index_to_position (to_index i out_shape) out_strides,
      f (a_storage.getD
          (index_to_position
            (broadcast_index (to_index i out_shape) out_shape a_shape)
            a_strides) 0)
        (b_storage.getD
          (index_to_position
            (broadcast_index (to_index i out_shape) out_shape b_shape)
            b_strides) 0))]
  else []

/-- The out-storage write of a `_map` thread, for composing a launch. -/
def mapThreadWrite (f : ℚ → ℚ) (out_shape : Shape) (out_strides : Strides)
    (out_size : ℕ) (in_storage : Storage) (in_shape : Shape)
    (in_strides : Strides) (i : ℕ) : Option (ℕ × ℚ) :=
  match mapThreadWrites f out_shape out_strides out_size in_storage in_shape
      in_strides i with
  | [] => none
  | w :: _ => some (w.2.1, w.2.2)

/-- The out-storage write of a `_zip` thread, for composing a launch. -/
def zipThreadWrite (f : ℚ → ℚ → ℚ) (out_shape : Shape) (out_strides : Strides)
    (out_size : ℕ) (a_storage : Storage) (a_shape : Shape) (a_strides : Strides)
    (b_storage : Storage) (b_shape : Shape) (b_strides : Strides) (i : ℕ) :
    Option (ℕ × ℚ) :=
  match zipThreadWrites f out_shape out_strides out_size a_storage a_shape
      a_strides b_storage b_shape b_strides i with
  | [] => none
  | w :: _ => some (w.2.1, w.2.2)

/-- Host-side `CudaOps.map` with `out=None` (cuda_ops.py lines 56-64): the
output is `a.zeros(a.shape)` (contiguous), and `_map` is launched over
`ceil(out.size/32)` blocks of 32 threads. -/
def cudaMap (f : ℚ → ℚ) (a : TensorView) : TensorView :=
  ⟨runWrites
      (mapThreadWrite f a.shape (contiguous_strides a.shape) a.shape.prod
        a.storage a.shape a.strides)
      (List.range (gridSize a.shape.prod)) (List.replicate a.shape.prod 0),
    a.shape, contiguous_strides a.shape⟩

/-- Host-side `CudaOps.zip` (cuda_ops.py lines 69-83): the output is a fresh
contiguous tensor of the broadcast shape; incompatible shapes fail before
any launch. -/
def cudaZip (f : ℚ → ℚ → ℚ) (a b : TensorView) : Option TensorView :=
  match shape_broadcast a.shape b.shape with
  | none => none
  | some S =>
    some ⟨runWrites
        (zipThreadWrite f S (contiguous_strides S) S.prod
          a.storage a.shape a.strides b.storage b.shape b.strides)
        (List.range (gridSize S.prod)) (List.replicate S.prod 0),
      S, contiguous_strides S⟩

theorem zipWith_bc_self {c S : List ℕ} (h : List.Forall₂ (· < ·) c S) :
    List.zipWith (fun ci si => if 1 < si then ci else 0) c S = c := by
  induction h with
  | nil => rfl
  | @cons a b l₁ l₂ h1 h2 ih =>
    simp only [List.zipWith_cons_cons, ih]
    congr 1
    by_cases hb : 1 < b
    · rw [if_pos hb]
    · rw [if_neg hb]; omega

/-- Broadcasting a valid coordinate of `S` into `S` itself is the
identity. -/
theorem broadcast_index_self {c : Index} {S : Shape}
    (h : List.Forall₂ (· < ·) c S) : broadcast_index c S S = c := by
  unfold broadcast_index
  rw [Nat.sub_self, List.drop_zero]
  exact zipWith_bc_self h

theorem mapThreadWrite_eq (f : ℚ → ℚ) (S : Shape) (inS : Storage)
    (inSh : Shape) (inStr : Strides) (y : ℕ) :
    mapThreadWrite f S (contiguous_strides S) S.prod inS inSh inStr y =
      if y < S.prod then
        some (y,
          f (inS.getD
              (index_to_position (broadcast_index (to_index y S) S inSh)
                inStr) 0))
      else none := by
  unfold mapThreadWrite mapThreadWrites
  by_cases hy : y < S.prod
  · rw [if_pos hy, if_pos hy]
    rw [index_to_position_to_index S y hy]
  · rw [if_neg hy, if_neg hy]

theorem zipThreadWrite_eq (f : ℚ → ℚ → ℚ) (S : Shape) (aS : Storage)
    (aSh : Shape) (aStr : Strides) (bS : Storage) (bSh : Shape)
    (bStr : Strides) (y : ℕ) :
    zipThreadWrite f S (contiguous_strides S) S.prod aS aSh aStr bS bSh bStr y =
      if y < S.prod then
        some (y,
          f (aS.getD
              (index_to_position (broadcast_index (to_index y S) S aSh)
                aStr) 0)
            (bS.getD
              (index_to_position (broadcast_index (to_index y S) S bSh)
                bStr) 0))
      else none := by
  unfold zipThreadWrite zipThreadWrites
  by_cases hy : y < S.prod
  · rw [if_pos hy, if_pos hy]
    rw [index_to_position_to_index S y hy]
  · rw [if_neg hy, if_neg hy]

/-- The element the launched `_map` kernel leaves at a valid output
coordinate. -/
theorem cudaMap_elem (f : ℚ → ℚ) (a : TensorView) (c : Index)
    (hc : List.Forall₂ (· < ·) c a.shape) :
    elemAt (cudaMap f a) c =
      f (a.storage.getD
          (index_to_position (broadcast_index c a.shape a.shape) a.strides)
          0) := by
  have hp : index_to_position c (contiguous_strides a.shape) < a.shape.prod :=
    index_to_position_lt hc
  have hdec : to_index (index_to_position c (contiguous_strides a.shape))
      a.shape = c := to_index_index_to_position hc
  show (cudaMap f a).storage.getD
      (index_to_position c (contiguous_strides a.shape)) 0 = _
  unfold cudaMap
  rw [runRange_getD a.shape.prod (gridSize a.shape.prod)
    (fun y => f (a.storage.getD
      (index_to_position (broadcast_index (to_index y a.shape) a.shape a.shape)
        a.strides) 0))
    _ (le_gridSize _)
    (fun y _ => mapThreadWrite_eq f a.shape a.storage a.shape a.strides y)
    _ hp]
  rw [hdec]

/-- The element the launched `_zip` kernel leaves at a valid output
coordinate of the broadcast shape. -/
theorem cudaZip_elem (f : ℚ → ℚ → ℚ) (a b : TensorView) (S : Shape)
    (hS : shape_broadcast a.shape b.shape = some S) (c : Index)
    (hc : List.Forall₂ (· < ·) c S) :
    ∃ out, cudaZip f a b = some out ∧ out.shape = S ∧
      elemAt out c =
        f (elemAt a (broadcast_index c S a.shape))
          (elemAt b (broadcast_index c S b.shape)) := by
  have hp : index_to_position c (contiguous_strides S) < S.prod :=
    index_to_position_lt hc
  have hdec : to_index (index_to_position c (contiguous_strides S)) S = c :=
    to_index_index_to_position hc
  refine ⟨_, by unfold cudaZip; rw [hS], rfl, ?_⟩
  show (runWrites
      (zipThreadWrite f S (contiguous_strides S) S.prod
        a.storage a.shape a.strides b.storage b.shape b.strides)
      (List.range (gridSize S.prod)) (List.replicate S.prod 0)).getD
      (index_to_position c (contiguous_strides S)) 0 = _
  rw [runRange_getD S.prod (gridSize S.prod)
    (fun y => f (a.storage.getD
        (index_to_position (broadcast_index (to_index y S) S a.shape)
          a.strides) 0)
      (b.storage.getD
        (index_to_position (broadcast_index (to_index y S) S b.shape)
          b.strides) 0))
    _ (le_gridSize _)
    (fun y _ => zipThreadWrite_eq f S a.storage a.shape a.strides
      b.storage b.shape b.strides y)
    _ hp]
  rw [hdec]
  rfl

/-! ## Claims C10, C6, C3, C9 -/

/-- **C10**: for every shape `S` and flat position `i ∈ [0, size(S))`,
`index_to_position (to_index i S) (contiguous_strides S) = i`; moreover,
in the other direction, decoding the position of any valid coordinate
returns that coordinate, so the two maps are mutual inverses for the
standard contiguous strides computed from `S`. -/
theorem claim_C10_round_trip (S : Shape) (i : ℕ) (h : i < S.prod) :
    index_to_position (to_index i S) (contiguous_strides S) = i ∧
    ∀ c : Index, List.Forall₂ (· < ·) c S →
      to_index (index_to_position c (contiguous_strides S)) S = c :=
  ⟨index_to_position_to_index S i h, fun _ hc => to_index_index_to_position hc⟩

theorem claim_C10_round_trip_witness :
    index_to_position (to_index 17 [2, 3, 4]) (contiguous_strides [2, 3, 4])
      = 17 :=
  (claim_C10_round_trip [2, 3, 4] 17 (by decide)).1

/-- **C6**: `map(f)(a)` with no explicit output returns a tensor of `a`'s
own shape whose element at every valid coordinate `c` equals
`f (a[c])`. -/
theorem claim_C6_map (f : ℚ → ℚ) (a : TensorView) (c : Index)
    (hc : List.Forall₂ (· < ·) c a.shape) :
    (cudaMap f a).shape = a.shape ∧
    elemAt (cudaMap f a) c = f (elemAt a c) := by
  refine ⟨rfl, ?_⟩
  rw [cudaMap_elem f a c hc, broadcast_index_self hc]
  rfl

theorem claim_C6_map_witness :
    (cudaMap (fun x => x * x) ⟨[1, 2, 3], [3], [1]⟩).shape = [3] ∧
    elemAt (cudaMap (fun x => x * x) ⟨[1, 2, 3], [3], [1]⟩) [1] = 4 := by
  have h := claim_C6_map (fun x => x * x) ⟨[1, 2, 3], [3], [1]⟩ [1]
    (List.Forall₂.cons (by omega) List.Forall₂.nil)
  refine ⟨h.1, ?_⟩
  rw [h.2]
  norm_num [elemAt, index_to_position]

/-- **C3**: for broadcast-compatible `a`, `b` and any binary `f`,
`zip(f)(a, b)` returns a tensor of the broadcast shape `S` whose element at
every valid coordinate `c` is `f` applied to `a`'s element at
`broadcast_index c S a.shape` and `b`'s element at
`broadcast_index c S b.shape`. -/
theorem claim_C3_zip (f : ℚ → ℚ → ℚ) (a b : TensorView) (S : Shape)
    (hS : shape_broadcast a.shape b.shape = some S) (c : Index)
    (hc : List.Forall₂ (· < ·) c S) :
    ∃ out, cudaZip f a b = some out ∧ out.shape = S ∧
      elemAt out c =
        f (elemAt a (broadcast_index c S a.shape))
          (elemAt b (broadcast_index c S b.shape)) :=
  cudaZip_elem f a b S hS c hc

theorem claim_C3_zip_witness :
    (∃ out,
      cudaZip (· + ·) ⟨[1, 2, 3], [3, 1], [1, 1]⟩
          ⟨[10, 20, 30, 40], [1, 4], [4, 1]⟩ = some out ∧
      out.shape = [3, 4] ∧
      elemAt out [1, 2] =
        elemAt (⟨[1, 2, 3], [3, 1], [1, 1]⟩ : TensorView)
            (broadcast_index [1, 2] [3, 4] [3, 1]) +
          elemAt (⟨[10, 20, 30, 40], [1, 4], [4, 1]⟩ : TensorView)
            (broadcast_index [1, 2] [3, 4] [1, 4])) ∧
    elemAt (⟨[1, 2, 3], [3, 1], [1, 1]⟩ : TensorView)
        (broadcast_index [1, 2] [3, 4] [3, 1]) +
      elemAt (⟨[10, 20, 30, 40], [1, 4], [4, 1]⟩ : TensorView)
        (broadcast_index [1, 2] [3, 4] [1, 4]) = 32 := by
  refine ⟨claim_C3_zip (· + ·) _ _ [3, 4] (by decide) [1, 2]
    (List.Forall₂.cons (by omega)
      (List.Forall₂.cons (by omega) List.Forall₂.nil)),
    by norm_num [elemAt, index_to_position, broadcast_index]⟩

/-- **C9**: in a map or zip launch, a thread with `i ≥ out.size` performs no
memory write at all; a thread with `i < out.size` performs exactly one
write, to the output flat position of its own output coordinate; and every
write of either kernel targets the output buffer, never an input
storage. -/
theorem claim_C9_frame (f : ℚ → ℚ) (g : ℚ → ℚ → ℚ) (out_shape : Shape)
    (out_strides : Strides) (out_size : ℕ) (aS : Storage) (aSh : Shape)
    (aStr : Strides) (bS : Storage) (bSh : Shape) (bStr : Strides) (i : ℕ) :
    (out_size ≤ i →
      mapThreadWrites f out_shape out_strides out_size aS aSh aStr i = [] ∧
      zipThreadWrites g out_shape out_strides out_size aS aSh aStr
        bS bSh bStr i = []) ∧
    (i < out_size →
      mapThreadWrites f out_shape out_strides out_size aS aSh aStr i =
        [(MemTarget.outBuf,
          index_to_position (to_index i out_shape) out_strides,
          f (aS.getD
              (index_to_position
                (broadcast_index (to_index i out_shape) out_shape aSh)
                aStr) 0))] ∧
      zipThreadWrites g out_shape out_strides out_size aS aSh aStr
          bS bSh bStr i =
        [(MemTarget.outBuf,
          index_to_position (to_index i out_shape) out_strides,
          g (aS.getD
              (index_to_position
                (broadcast_index (to_index i out_shape) out_shape aSh)
                aStr) 0)
            (bS.getD
              (index_to_position
                (broadcast_index (to_index i out_shape) out_shape bSh)
                bStr) 0))]) ∧
    (∀ w ∈ mapThreadWrites f out_shape out_strides out_size aS aSh aStr i,
      w.1 = MemTarget.outBuf) ∧
    (∀ w ∈ zipThreadWrites g out_shape out_strides out_size aS aSh aStr
        bS bSh bStr i,
      w.1 = MemTarget.outBuf) := by
  unfold mapThreadWrites zipThreadWrites
  by_cases hi : i < out_size
  · refine ⟨fun hle => absurd hi (by omega), fun _ => ⟨if_pos hi, if_pos hi⟩,
      ?_, ?_⟩
    · rw [if_pos hi]
      intro w hw
      rw [List.mem_singleton] at hw
      rw [hw]
    · rw [if_pos hi]
      intro w hw
      rw [List.mem_singleton] at hw
      rw [hw]
  · refine ⟨fun _ => ⟨if_neg hi, if_neg hi⟩, fun hlt => absurd hlt hi, ?_, ?_⟩
    · rw [if_neg hi]
      intro w hw
      simp at hw
    · rw [if_neg hi]
      intro w hw
      simp at hw

theorem claim_C9_frame_witness :
    mapThreadWrites (fun x => x + 1) [3] [1] 3 [5, 6, 7] [3] [1] 7 = [] ∧
    zipThreadWrites (· + ·) [3] [1] 3 [5, 6, 7] [3] [1] [8, 9, 10] [3] [1] 7
      = [] ∧
    mapThreadWrites (fun x => x + 1) [3] [1] 3 [5, 6, 7] [3] [1] 1 =
      [(MemTarget.outBuf,
        index_to_position (to_index 1 [3]) [1],
        (fun x => x + 1) (List.getD [5, 6, 7]
          (index_to_position (broadcast_index (to_index 1 [3]) [3] [3]) [1])
          0))] := by
  have h1 := claim_C9_frame (fun x => x + 1) (· + ·) [3] [1] 3
    [5, 6, 7] [3] [1] [8, 9, 10] [3] [1] 7
  have h2 := claim_C9_frame (fun x => x + 1) (· + ·) [3] [1] 3
    [5, 6, 7] [3] [1] [8, 9, 10] [3] [1] 1
  exact ⟨(h1.1 (by omega)).1, (h1.1 (by omega)).2, (h2.2.1 (by omega)).1⟩

/-! ## Reduction kernel (from `cuda_ops.py`, `tensor_reduce._reduce` and
`CudaOps.reduce`) -/

/-- Python's `(n - 1) // 1024 + 1` on ints (floor division), the output
axis size computed by `CudaOps.reduce` (cuda_ops.py line 94). -/
def pyReduceAxisSize (n : ℕ) : ℕ := (((n : ℤ) - 1).fdiv 1024 + 1).toNat

theorem pyReduceAxisSize_eq (n : ℕ) :
    pyReduceAxisSize n = (n + 1023) / 1024 := by
  cases n with
  | zero => decide
  | succ m =>
    unfold pyReduceAxisSize
    have h1 : ((m + 1 : ℕ) : ℤ) - 1 = (m : ℤ) := by push_cast; ring
    rw [h1]
    have h2 : (m : ℤ).fdiv 1024 = ((m / 1024 : ℕ) : ℤ) := by
      rw [show ((1024 : ℤ)) = ((1024 : ℕ) : ℤ) by norm_num]
      exact (Int.ofNat_fdiv m 1024).symm
    rw [h2]
    omega

/-- The in-block tree combine of `_reduce` after `m` steps (strides
`2^0, …, 2^(m-1)`; the source loop runs `while 2**idx < BLOCK_DIM` with the
combine guarded by `pos % ((2**idx) * 2) == 0`), as a function from thread
index to `cache[pos]`.  A thread participates only when its computed source
axis index is within the input axis bound (`out_index[reduce_dim] < dim` in
the source); steps are barrier-separated, so step `m+1` reads the values
left by step `m`. -/
def treeCombine (f : ℚ → ℚ → ℚ) (part : ℕ → Bool) (cache : ℕ → ℚ) :
    ℕ → ℕ → ℚ
  | 0 => cache
  | m + 1 => fun p =>
      if part p ∧ p % (2 ^ m * 2) = 0 then
        f (treeCombine f part cache m p) (treeCombine f part cache m (p + 2 ^ m))
      else treeCombine f part cache m p

/-- Initial shared `cache` of a `_reduce` block (cuda_ops.py lines 328-336):
every slot starts at `reduce_value`; a thread whose source axis index
`out_index[reduce_dim] * 1024 + pos` is within the input axis bound
overwrites its slot with its source element, addressed by the block's
output coordinate with the reduce dimension replaced by that index. -/
def reduceCacheInit (start : ℚ) (aS : Storage) (a_shape : Shape)
    (a_strides : Strides) (out_shape : Shape) (reduce_dim out_pos : ℕ)
    (pos : ℕ) : ℚ :=
  if (to_index out_pos out_shape).getD reduce_dim 0 * 1024 + pos
      < a_shape.getD reduce_dim 0 then
    aS.getD
      (index_to_position
        ((to_index out_pos out_shape).set reduce_dim
          ((to_index out_pos out_shape).getD reduce_dim 0 * 1024 + pos))
        a_strides) 0
  else start

/-- Participation guard of the tree combine: the thread's source axis index
is within the input axis bound. -/
def reducePart (a_shape : Shape) (out_shape : Shape) (reduce_dim out_pos : ℕ)
    (pos : ℕ) : Bool :=
  (to_index out_pos out_shape).getD reduce_dim 0 * 1024 + pos
    < a_shape.getD reduce_dim 0

/-- The flat output position thread 0 of a `_reduce` block writes to
(cuda_ops.py line 346).  `out_index[reduce_dim]` has been overwritten with
`out_index[reduce_dim] * BLOCK_DIM + pos` (line 333, with `pos = 0` for
thread 0) before this write. -/
def reduceBlockPos (out_shape : Shape) (out_strides : Strides)
    (reduce_dim out_pos : ℕ) : ℕ :=
  index_to_position
    ((to_index out_pos out_shape).set reduce_dim
      ((to_index out_pos out_shape).getD reduce_dim 0 * 1024 + 0))
    out_strides

/-- The value `cache[0]` that thread 0 of a `_reduce` block writes: the
result of the 10-step tree combine (`2^idx < 1024` for `idx = 0..9`). -/
def reduceBlockVal (f : ℚ → ℚ → ℚ) (start : ℚ) (aS : Storage)
    (a_shape : Shape) (a_strides : Strides) (out_shape : Shape)
    (reduce_dim out_pos : ℕ) : ℚ :=
  treeCombine f (reducePart a_shape out_shape reduce_dim out_pos)
    (reduceCacheInit start aS a_shape a_strides out_shape reduce_dim out_pos)
    10 0

/-- The single write a `_reduce` block performs (thread 0 only, under the
`out_pos < out_size` guard). -/
def reduceBlockWrite (f : ℚ → ℚ → ℚ) (start : ℚ) (aS : Storage)
    (a_shape : Shape) (a_strides : Strides) (out_shape : Shape)
    (out_strides : Strides) (reduce_dim out_size out_pos : ℕ) :
    Option (ℕ × ℚ) :=
  if out_pos < out_size then
    some (reduceBlockPos out_shape out_strides reduce_dim out_pos,
      reduceBlockVal f start aS a_shape a_strides out_shape reduce_dim out_pos)
  else none

/-- Host-side `CudaOps.reduce` (cuda_ops.py lines 92-103): the output shape
resizes axis `dim` to `(a.shape[dim] - 1) // 1024 + 1`, the output is a
fresh contiguous zeros tensor, and one 1024-thread block is launched per
output position. -/
def cudaReduce (f : ℚ → ℚ → ℚ) (start : ℚ) (a : TensorView) (dim : ℕ) :
    TensorView :=
  ⟨runWrites
      (reduceBlockWrite f start a.storage a.shape a.strides
        (a.shape.set dim (pyReduceAxisSize (a.shape.getD dim 0)))
        (contiguous_strides
          (a.shape.set dim (pyReduceAxisSize (a.shape.getD dim 0))))
        dim (a.shape.set dim (pyReduceAxisSize (a.shape.getD dim 0))).prod)
      (List.range
        (a.shape.set dim (pyReduceAxisSize (a.shape.getD dim 0))).prod)
      (List.replicate
        (a.shape.set dim (pyReduceAxisSize (a.shape.getD dim 0))).prod 0),
    a.shape.set dim (pyReduceAxisSize (a.shape.getD dim 0)),
    contiguous_strides (a.shape.set dim (pyReduceAxisSize (a.shape.getD dim 0)))⟩

/-! ### Claim C5: the reduce output shape -/

/-- **C5**: the output tensor allocated by `reduce` has the same shape as
`a` except that dimension `dim` is resized to `ceil(a.shape[dim] / 1024)`
(written `(a.shape[dim] + 1023) / 1024`); every other extent is
unchanged. -/
theorem claim_C5_reduce_shape (f : ℚ → ℚ → ℚ) (start : ℚ) (a : TensorView)
    (dim : ℕ) (hd : dim < a.shape.length) :
    (cudaReduce f start a dim).shape =
      a.shape.set dim ((a.shape.getD dim 0 + 1023) / 1024) ∧
    (cudaReduce f start a dim).shape.getD dim 0 =
      (a.shape.getD dim 0 + 1023) / 1024 ∧
    ∀ d, d ≠ dim →
      (cudaReduce f start a dim).shape.getD d 0 = a.shape.getD d 0 := by
  have hsh : (cudaReduce f start a dim).shape =
      a.shape.set dim (pyReduceAxisSize (a.shape.getD dim 0)) := rfl
  rw [hsh, pyReduceAxisSize_eq]
  refine ⟨rfl, getD_set_self _ _ _ _ hd, fun d hdd => ?_⟩
  exact getD_set_ne _ _ _ _ _ (fun hh => hdd hh.symm)

theorem claim_C5_reduce_shape_witness :
    (cudaReduce (· + ·) 0 ⟨[], [2050], [1]⟩ 0).shape = [3] := by
  have h := claim_C5_reduce_shape (· + ·) 0 ⟨[], [2050], [1]⟩ 0 (by decide)
  rw [h.1]
  decide

/-! ### Claim C1: the thread-0 write position of `_reduce` -/

/-- **C1** is refuted by the code: in the spec's own multi-chunk scenario
(input axis size 2050, so output shape `[3]` with contiguous strides `[1]`
and `out_size = 3`), the block with `out_pos = 1` has thread 0 write
`cache[0]` to flat position `1024`, because `out_index[reduce_dim]` was
overwritten with `out_index[reduce_dim] * BLOCK_DIM + pos` (cuda_ops.py
line 333) before the write on line 346; the claimed position
`index_to_position(to_index(out_pos, out_shape), out_strides)` is `1`, and
the actual position `1024` even lies outside the 3-element output
storage. -/
theorem claim_C1_reduce_write_pos_bug :
    reduceBlockWrite (· + ·) 0 (List.replicate 2050 1) [2050] [1] [3] [1] 0 3 1
      = some (1024,
        reduceBlockVal (· + ·) 0 (List.replicate 2050 1) [2050] [1] [3] 0 1) ∧
    reduceBlockPos [3] [1] 0 1 = 1024 ∧
    index_to_position (to_index 1 [3]) [1] = 1 ∧
    (1024 : ℕ) ≠ 1 ∧ ¬ 1024 < 3 := by
  refine ⟨rfl, by decide, by decide, by decide, by decide⟩

/-! ### Claim C4: single-chunk additive reduction -/

theorem sum_map_range_add (f : ℕ → ℚ) (a b : ℕ) :
    ((List.range (a + b)).map f).sum =
      ((List.range a).map f).sum +
        ((List.range b).map (fun q => f (a + q))).sum := by
  rw [List.range_add, List.map_append, List.sum_append, List.map_map]
  rfl

/-- The tree combine with `+` over an initial cache that is zero outside
the participating prefix computes block sums: after `m` steps every thread
index that is a multiple of `2^m` holds the sum of the `2^m` initial values
starting at it. -/
theorem treeCombine_add (part : ℕ → Bool) (init : ℕ → ℚ)
    (hz : ∀ q, part q = false → init q = 0)
    (hdc : ∀ p q, p ≤ q → part q = true → part p = true) :
    ∀ m p, p % 2 ^ m = 0 →
      treeCombine (· + ·) part init m p =
        ((List.range (2 ^ m)).map (fun q => init (p + q))).sum := by
  intro m
  induction m with
  | zero =>
    intro p _
    show init p = (List.map (fun q => init (p + q)) (List.range 1)).sum
    rw [show List.range 1 = [0] from rfl]
    simp
  | succ m ih =>
    intro p hp
    have hdvd : (2 : ℕ) ^ m ∣ p :=
      dvd_trans (pow_dvd_pow 2 (Nat.le_succ m)) (Nat.dvd_of_mod_eq_zero hp)
    have hp2 : p % 2 ^ m = 0 := Nat.mod_eq_zero_of_dvd hdvd
    have hp2' : (p + 2 ^ m) % 2 ^ m = 0 := by
      rw [Nat.add_mod_right, hp2]
    have hcond : p % (2 ^ m * 2) = 0 := by
      rw [← pow_succ]; exact hp
    have hsplit : (2 : ℕ) ^ (m + 1) = 2 ^ m + 2 ^ m := by
      rw [pow_succ, Nat.mul_two]
    show (if part p ∧ p % (2 ^ m * 2) = 0 then
        treeCombine (· + ·) part init m p +
          treeCombine (· + ·) part init m (p + 2 ^ m)
      else treeCombine (· + ·) part init m p) = _
    by_cases hpart : part p = true
    · rw [if_pos ⟨hpart, hcond⟩, ih p hp2, ih (p + 2 ^ m) hp2', hsplit,
        sum_map_range_add]
      congr 1
      apply congrArg
      apply List.map_congr_left
      intro q _
      rw [Nat.add_assoc]
    · rw [if_neg (fun hand => hpart hand.1), ih p hp2]
      have hall : ∀ q, init (p + q) = 0 := by
        intro q
        apply hz
        cases hpq : part (p + q) with
        | false => rfl
        | true => exact absurd (hdc p (p + q) (Nat.le_add_right p q) hpq) hpart
      have hzero : ∀ n, ((List.range n).map (fun q => init (p + q))).sum = 0 := by
        intro n
        apply List.sum_eq_zero
        intro x hx
        rw [List.mem_map] at hx
        obtain ⟨q, _, hq⟩ := hx
        rw [← hq, hall]
      rw [hzero, hzero]

/-- In the single-chunk regime (output extent 1 on the reduced axis) every
block writes its tree-combined value at its own flat block index. -/
theorem reduceBlockWrite_single_chunk (f : ℚ → ℚ → ℚ) (start : ℚ)
    (aS : Storage) (a_shape : Shape) (a_strides : Strides) (oS : Shape)
    (dim : ℕ) (hdim : dim < oS.length) (h1 : oS.getD dim 0 = 1)
    (y : ℕ) (hy : y < oS.prod) :
    reduceBlockWrite f start aS a_shape a_strides oS (contiguous_strides oS)
      dim oS.prod y =
      some (y, reduceBlockVal f start aS a_shape a_strides oS dim y) := by
  unfold reduceBlockWrite
  rw [if_pos hy]
  have hval := forall₂_getD (to_index_forall₂ y oS) dim hdim
  rw [h1] at hval
  have hr : (to_index y oS).getD dim 0 = 0 := by omega
  unfold reduceBlockPos
  rw [hr]
  have hset : (to_index y oS).set dim (0 * 1024 + 0) = to_index y oS := by
    have : 0 * 1024 + 0 = (to_index y oS).getD dim 0 := by omega
    rw [this, set_getD_self]
  rw [hset, index_to_position_to_index oS y hy]

/-- **C4**: for a single-chunk reduction (`a.shape[dim] ≤ 1024`) with
`fn = add` and `start = 0`, every element of the output equals the naive
sequential sum of the corresponding slice of `a` along `dim`; threads whose
source axis index is out of bounds contribute the start value 0 and do not
perturb the sum. -/
theorem claim_C4_reduce_single_chunk (a : TensorView) (dim : ℕ)
    (hd : dim < a.shape.length) (hn : a.shape.getD dim 0 ≤ 1024)
    (c : Index)
    (hc : List.Forall₂ (· < ·) c
      (a.shape.set dim (pyReduceAxisSize (a.shape.getD dim 0)))) :
    elemAt (cudaReduce (· + ·) 0 a dim) c =
      ((List.range (a.shape.getD dim 0)).map
        (fun k => elemAt a (c.set dim k))).sum := by
  set n := a.shape.getD dim 0 with hn_def
  set oS := a.shape.set dim (pyReduceAxisSize n) with hoS
  have hdim' : dim < oS.length := by rw [hoS, List.length_set]; exact hd
  have hcd := forall₂_getD hc dim hdim'
  have hgetD : oS.getD dim 0 = pyReduceAxisSize n :=
    getD_set_self _ _ _ _ hd
  have hnpos : 1 ≤ n := by
    by_contra hcon
    have hzero : n = 0 := by omega
    rw [hgetD, hzero] at hcd
    have : pyReduceAxisSize 0 = 0 := by decide
    omega
  have h1 : oS.getD dim 0 = 1 := by
    rw [hgetD, pyReduceAxisSize_eq]
    omega
  have hc0 : c.getD dim 0 = 0 := by
    rw [h1] at hcd
    omega
  have hp : index_to_position c (contiguous_strides oS) < oS.prod :=
    index_to_position_lt hc
  have hdec : to_index (index_to_position c (contiguous_strides oS)) oS = c :=
    to_index_index_to_position hc
  -- the value every block writing to this position stores
  have hval : reduceBlockVal (· + ·) 0 a.storage a.shape a.strides oS dim
      (index_to_position c (contiguous_strides oS)) =
      ((List.range n).map (fun k => elemAt a (c.set dim k))).sum := by
    unfold reduceBlockVal
    have hpart_eq : ∀ q, reducePart a.shape oS dim
        (index_to_position c (contiguous_strides oS)) q = decide (q < n) := by
      intro q
      unfold reducePart
      rw [hdec, hc0]
      simp only [Nat.zero_mul, Nat.zero_add]
    have hinit_eq : ∀ q, reduceCacheInit 0 a.storage a.shape a.strides oS dim
        (index_to_position c (contiguous_strides oS)) q =
        if q < n then elemAt a (c.set dim q) else 0 := by
      intro q
      unfold reduceCacheInit
      rw [hdec, hc0]
      simp only [Nat.zero_mul, Nat.zero_add]
      rfl
    have hz : ∀ q, reducePart a.shape oS dim
        (index_to_position c (contiguous_strides oS)) q = false →
        reduceCacheInit 0 a.storage a.shape a.strides oS dim
          (index_to_position c (contiguous_strides oS)) q = 0 := by
      intro q hq
      rw [hpart_eq] at hq
      rw [hinit_eq, if_neg (by simpa using hq)]
    have hdc : ∀ p q, p ≤ q →
        reducePart a.shape oS dim
          (index_to_position c (contiguous_strides oS)) q = true →
        reducePart a.shape oS dim
          (index_to_position c (contiguous_strides oS)) p = true := by
      intro p q hpq hq
      rw [hpart_eq] at hq ⊢
      simp only [decide_eq_true_eq] at hq ⊢
      omega
    rw [treeCombine_add _ _ hz hdc 10 0 (by decide)]
    have h1024 : (2 : ℕ) ^ 10 = n + (1024 - n) := by
      have : (2 : ℕ) ^ 10 = 1024 := by decide
      omega
    rw [h1024, sum_map_range_add]
    have hzero : ((List.range (1024 - n)).map
        (fun q => reduceCacheInit 0 a.storage a.shape a.strides oS dim
          (index_to_position c (contiguous_strides oS)) (0 + (n + q)))).sum
        = 0 := by
      apply List.sum_eq_zero
      intro x hx
      rw [List.mem_map] at hx
      obtain ⟨q, _, hq⟩ := hx
      rw [← hq, Nat.zero_add, hinit_eq, if_neg (by omega)]
    rw [hzero, add_zero]
    apply congrArg
    apply List.map_congr_left
    intro q hq
    rw [List.mem_range] at hq
    rw [Nat.zero_add, hinit_eq, if_pos hq]
  show (cudaReduce (· + ·) 0 a dim).storage.getD
      (index_to_position c (contiguous_strides oS)) 0 = _
  unfold cudaReduce
  apply runWrites_getD
  · rw [List.length_replicate]
    exact hp
  · intro y hy w hw
    rw [List.mem_range] at hy
    rw [reduceBlockWrite_single_chunk (· + ·) 0 a.storage a.shape a.strides
      oS dim hdim' h1 y hy] at hw
    have hpair := Option.some.inj hw
    have hyp : y = index_to_position c (contiguous_strides oS) :=
      congrArg Prod.fst hpair
    have hwv : reduceBlockVal (· + ·) 0 a.storage a.shape a.strides oS dim y
        = w := congrArg Prod.snd hpair
    rw [← hwv, hyp, hval]
  · exact ⟨index_to_position c (contiguous_strides oS),
      List.mem_range.mpr hp,
      reduceBlockVal (· + ·) 0 a.storage a.shape a.strides oS dim
        (index_to_position c (contiguous_strides oS)),
      reduceBlockWrite_single_chunk (· + ·) 0 a.storage a.shape a.strides
        oS dim hdim' h1 _ hp⟩

theorem claim_C4_reduce_single_chunk_witness :
    elemAt (cudaReduce (· + ·) 0 ⟨[1, 2, 3, 4], [2, 2], [2, 1]⟩ 1) [1, 0] =
      ((List.range 2).map
        (fun k => elemAt ⟨[1, 2, 3, 4], [2, 2], [2, 1]⟩ ([1, 0].set 1 k))).sum ∧
    ((List.range 2).map
      (fun k => elemAt ⟨[1, 2, 3, 4], [2, 2], [2, 1]⟩ ([1, 0].set 1 k))).sum
      = 7 := by
  constructor
  · exact claim_C4_reduce_single_chunk ⟨[1, 2, 3, 4], [2, 2], [2, 1]⟩ 1
      (by decide) (by decide) [1, 0]
      (List.Forall₂.cons (by decide)
        (List.Forall₂.cons (by decide) List.Forall₂.nil))
  · norm_num [elemAt, index_to_position, List.range_succ]

/-! ## Batched matmul kernel (from `cuda_ops.py`,
`_tensor_matrix_multiply` and `CudaOps.matrix_multiply`) -/

/-- The `a`-tile value the computing thread reads from shared memory at its
own global row `i` and global shared-axis column `col` (cuda_ops.py lines
499-505): the slot was filled, in the same barrier-delimited phase, by the
thread of the same row with thread-local column `col % 32`, which loaded
`a[batch*a_batch_stride + i*a_strides[1] + col*a_strides[2]]` when in
bounds and padded `0.0` otherwise. -/
def mmATile (aS : Storage) (a_shape : Shape) (a_strides : Strides)
    (batch i col : ℕ) : ℚ :=
  if i < a_shape.getD 1 0 ∧ col < a_shape.getD 2 0 then
    aS.getD ((if 1 < a_shape.getD 0 0 then a_strides.getD 0 0 else 0) * batch
      + a_strides.getD 1 0 * i + a_strides.getD 2 0 * col) 0
  else 0

/-- The `b`-tile value at a global shared-axis row `row` and the computing
thread's own global column `j` (cuda_ops.py lines 507-513). -/
def mmBTile (bS : Storage) (b_shape : Shape) (b_strides : Strides)
    (batch row j : ℕ) : ℚ :=
  if j < b_shape.getD 2 0 ∧ row < b_shape.getD 1 0 then
    bS.getD ((if 1 < b_shape.getD 0 0 then b_strides.getD 0 0 else 0) * batch
      + b_strides.getD 1 0 * row + b_strides.getD 2 0 * j) 0
  else 0

/-- The accumulator of one matmul thread after all chunks of the shared
axis: for each tile start `32*t` (`range(0, a_shape[2], 32)`), the inner
loop adds `a_tile * b_tile` for the positions `32*t + k`, `k < 32`, that
satisfy the `idx + k < a_shape[2]` guard (cuda_ops.py lines 493-526). -/
def mmAccum (aS : Storage) (a_shape : Shape) (a_strides : Strides)
    (bS : Storage) (b_shape : Shape) (b_strides : Strides)
    (batch i j : ℕ) : ℚ :=
  ((List.range ((a_shape.getD 2 0 + 31) / 32)).map (fun t =>
    ((List.range 32).map (fun k =>
      if 32 * t + k < a_shape.getD 2 0 then
        mmATile aS a_shape a_strides batch i (32 * t + k) *
          mmBTile bS b_shape b_strides batch (32 * t + k) j
      else 0)).sum)).sum

/-- One matmul thread `(batch, i, j)` (cuda_ops.py lines 435-534): it
writes its accumulator to the strided output position exactly when all
three output bounds hold. -/
def mmThreadWrite (aS : Storage) (a_shape : Shape) (a_strides : Strides)
    (bS : Storage) (b_shape : Shape) (b_strides : Strides)
    (out_shape : Shape) (out_strides : Strides) (t : ℕ × ℕ × ℕ) :
    Option (ℕ × ℚ) :=
  if t.1 < out_shape.getD 0 0 ∧ t.2.1 < out_shape.getD 1 0 ∧
      t.2.2 < out_shape.getD 2 0 then
    some (out_strides.getD 0 0 * t.1 + out_strides.getD 1 0 * t.2.1
        + out_strides.getD 2 0 * t.2.2,
      mmAccum aS a_shape a_strides bS b_shape b_strides t.1 t.2.1 t.2.2)
  else none

/-- The matmul launch grid (cuda_ops.py lines 125-131): one z-layer per
output batch, x covering rows in 32-thread blocks rounded up, y covering
columns likewise. -/
def mmGrid (gz gx gy : ℕ) : List (ℕ × ℕ × ℕ) :=
  (List.range gz).flatMap (fun p =>
    (List.range gx).flatMap (fun i =>
      (List.range gy).map (fun j => (p, i, j))))

theorem mem_mmGrid (gz gx gy p i j : ℕ) :
    (p, i, j) ∈ mmGrid gz gx gy ↔ p < gz ∧ i < gx ∧ j < gy := by
  unfold mmGrid
  simp [List.mem_flatMap, List.mem_map, List.mem_range, Prod.ext_iff]
  constructor
  · rintro ⟨p', hp', i', hi', j', hj', h1, h2, h3⟩
    exact ⟨h1 ▸ hp', h2 ▸ hi', h3 ▸ hj'⟩
  · rintro ⟨hp, hi, hj⟩
    exact ⟨p, hp, i, hi, j, hj, rfl, rfl, rfl⟩

/-- `Tensor.contiguous()`: gather the view into row-major order. -/
def contiguousStorage (t : TensorView) : Storage :=
  (List.range t.shape.prod).map (fun i =>
    t.storage.getD (index_to_position (to_index i t.shape) t.strides) 0)

/-- The 2D→3D rank normalization of `CudaOps.matrix_multiply` (cuda_ops.py
lines 110-116): a 2D operand is replaced by
`contiguous().view(1, shape[0], shape[1])`. -/
def viewAs3d (t : TensorView) : TensorView :=
  if t.shape.length = 2 then
    ⟨contiguousStorage t, 1 :: t.shape, contiguous_strides (1 :: t.shape)⟩
  else t

/-- The output shape list `ls` of `CudaOps.matrix_multiply` (lines
119-121): broadcast of the batch dimensions followed by `a.shape[-2]` and
`b.shape[-1]`; `none` when the batch dimensions are incompatible. -/
def mmOutShape (a b : TensorView) : Option Shape :=
  (shape_broadcast (a.shape.take (a.shape.length - 2))
      (b.shape.take (b.shape.length - 2))).map
    (fun bs => bs ++ [a.shape.getD (a.shape.length - 2) 0,
      b.shape.getD (b.shape.length - 1) 0])

/-- One full kernel launch of `_tensor_matrix_multiply` over a fresh
contiguous zeros output of shape `ls` (cuda_ops.py lines 123-135). -/
def mmRun (a b : TensorView) (ls : Shape) : TensorView :=
  ⟨runWrites
      (mmThreadWrite a.storage a.shape a.strides b.storage b.shape b.strides
        ls (contiguous_strides ls))
      (mmGrid (ls.getD 0 0) (gridSize (ls.getD 1 0)) (gridSize (ls.getD 2 0)))
      (List.replicate ls.prod 0),
    ls, contiguous_strides ls⟩

/-- Host-side `CudaOps.matrix_multiply` (cuda_ops.py lines 108-140):
normalize 2D operands to a single implicit batch, broadcast the batch
dimensions, assert `a.shape[-1] == b.shape[-2]` before allocating any
output or launching, run the kernel grid, and remove the implicit batch
dimension again iff both operands were originally 2D. -/
def matrix_multiply (a0 b0 : TensorView) : Option TensorView :=
  match mmOutShape (viewAs3d a0) (viewAs3d b0) with
  | none => none
  | some ls =>
    if (viewAs3d a0).shape.getD ((viewAs3d a0).shape.length - 1) 0 =
        (viewAs3d b0).shape.getD ((viewAs3d b0).shape.length - 2) 0 then
      if a0.shape.length = 2 ∧ b0.shape.length = 2 then
        some ⟨(mmRun (viewAs3d a0) (viewAs3d b0) ls).storage,
          [ls.getD 1 0, ls.getD 2 0],
          contiguous_strides [ls.getD 1 0, ls.getD 2 0]⟩
      else some (mmRun (viewAs3d a0) (viewAs3d b0) ls)
    else none

theorem contiguous_strides_three (x y z : ℕ) :
    contiguous_strides [x, y, z] = [y * z, z, 1] := by
  show ((contigRev [z, y, x]).reverse : List ℕ) = _
  simp [contigRev, Nat.mul_comm]

theorem index_to_position_three (p i j s0 s1 s2 : ℕ) :
    index_to_position [p, i, j] [s0, s1, s2] = p * s0 + i * s1 + j * s2 := by
  simp [index_to_position]
  ring

/-- Two valid coordinates with the same contiguous flat position are
equal. -/
theorem index_to_position_inj {S : Shape} {c c' : Index}
    (hc : List.Forall₂ (· < ·) c S) (hc' : List.Forall₂ (· < ·) c' S)
    (h : index_to_position c (contiguous_strides S) =
      index_to_position c' (contiguous_strides S)) : c = c' := by
  rw [← to_index_index_to_position hc, ← to_index_index_to_position hc', h]

theorem shape_broadcast_single (x y : ℕ) (h : x = y ∨ x = 1 ∨ y = 1) :
    shape_broadcast [x] [y] = some [max x y] := by
  unfold shape_broadcast
  have hcond : (List.zip
      (List.replicate (max ([x] : List ℕ).length ([y] : List ℕ).length
        - ([x] : List ℕ).length) 1 ++ [x])
      (List.replicate (max ([x] : List ℕ).length ([y] : List ℕ).length
        - ([y] : List ℕ).length) 1 ++ [y])).all
      (fun p => p.1 == p.2 || p.1 == 1 || p.2 == 1) = true := by
    simp only [List.length_cons, List.length_nil, Nat.max_self,
      Nat.sub_self, List.replicate_zero, List.nil_append, List.zip_cons_cons,
      List.zip_nil_right, List.all_cons, List.all_nil, Bool.and_true]
    rcases h with h | h | h <;> simp [h]
  rw [if_pos hcond]
  simp

/-- Collapsing the tiled double sum: summing 32-wide chunks over
`ceil(K/32)` tiles of a function that vanishes at `≥ K` equals the plain
sum over `[0, K)`. -/
theorem sum_tiles (h : ℕ → ℚ) : ∀ T : ℕ,
    ((List.range T).map (fun t => ((List.range 32).map
      (fun k => h (32 * t + k))).sum)).sum =
      ((List.range (32 * T)).map h).sum := by
  intro T
  induction T with
  | zero => rfl
  | succ T ih =>
    rw [show List.range (T + 1) = List.range T ++ [T] from List.range_succ T,
      List.map_append, List.sum_append,
      show 32 * (T + 1) = 32 * T + 32 by ring, sum_map_range_add, ih]
    simp only [List.map_cons, List.map_nil, List.sum_cons, List.sum_nil,
      add_zero]

theorem sum_blocked (g : ℕ → ℚ) (K : ℕ) :
    ((List.range ((K + 31) / 32)).map (fun t => ((List.range 32).map
      (fun k => if 32 * t + k < K then g (32 * t + k) else 0)).sum)).sum =
      ((List.range K).map g).sum := by
  rw [sum_tiles (fun c => if c < K then g c else 0) ((K + 31) / 32)]
  have hK : K ≤ 32 * ((K + 31) / 32) := by omega
  rw [show 32 * ((K + 31) / 32) = K + (32 * ((K + 31) / 32) - K) by omega,
    sum_map_range_add]
  have hz : ((List.range (32 * ((K + 31) / 32) - K)).map
      (fun q => if K + q < K then g (K + q) else 0)).sum = 0 := by
    apply List.sum_eq_zero
    intro x hx
    rw [List.mem_map] at hx
    obtain ⟨q, _, hq⟩ := hx
    rw [← hq, if_neg (by omega)]
  rw [hz, add_zero]
  apply congrArg
  apply List.map_congr_left
  intro q hq
  rw [List.mem_range] at hq
  rw [if_pos hq]

theorem mmThreadWrite_eq (aS : Storage) (a_shape : Shape)
    (a_strides : Strides) (bS : Storage) (b_shape : Shape)
    (b_strides : Strides) (B M N : ℕ) (t : ℕ × ℕ × ℕ) :
    mmThreadWrite aS a_shape a_strides bS b_shape b_strides [B, M, N]
      (contiguous_strides [B, M, N]) t =
      if t.1 < B ∧ t.2.1 < M ∧ t.2.2 < N then
        some (index_to_position [t.1, t.2.1, t.2.2]
            (contiguous_strides [B, M, N]),
          mmAccum aS a_shape a_strides bS b_shape b_strides t.1 t.2.1 t.2.2)
      else none := by
  unfold mmThreadWrite
  rw [contiguous_strides_three, index_to_position_three]
  simp only [List.getD_cons_zero, List.getD_cons_succ]
  by_cases hcond : t.1 < B ∧ t.2.1 < M ∧ t.2.2 < N
  · rw [if_pos hcond, if_pos hcond]
    have hpos : M * N * t.1 + N * t.2.1 + 1 * t.2.2
        = t.1 * (M * N) + t.2.1 * N + t.2.2 * 1 := by ring
    rw [hpos]
  · rw [if_neg hcond, if_neg hcond]

/-- The accumulator of an in-bounds matmul thread is the exact dot product
over the true shared axis, the zero tile padding contributing nothing. -/
theorem mmAccum_eq (a b : TensorView)
    (Ba M K Bb N sa0 sa1 sa2 sb0 sb1 sb2 : ℕ)
    (ha : a.shape = [Ba, M, K]) (hb : b.shape = [Bb, K, N])
    (hsa : a.strides = [sa0, sa1, sa2]) (hsb : b.strides = [sb0, sb1, sb2])
    (p i j : ℕ) (hi : i < M) (hj : j < N) :
    mmAccum a.storage a.shape a.strides b.storage b.shape b.strides p i j =
      ((List.range K).map (fun k =>
        elemAt a [if 1 < Ba then p else 0, i, k] *
          elemAt b [if 1 < Bb then p else 0, k, j])).sum := by
  unfold mmAccum
  rw [ha, hb]
  simp only [List.getD_cons_zero, List.getD_cons_succ]
  rw [sum_blocked (fun c => mmATile a.storage [Ba, M, K] a.strides p i c *
    mmBTile b.storage [Bb, K, N] b.strides p c j) K]
  apply congrArg
  apply List.map_congr_left
  intro k hk
  rw [List.mem_range] at hk
  unfold mmATile mmBTile elemAt
  simp only [List.getD_cons_zero, List.getD_cons_succ]
  rw [if_pos (show i < M ∧ k < K from ⟨hi, hk⟩),
    if_pos (show j < N ∧ k < K from ⟨hj, hk⟩), hsa, hsb]
  simp only [index_to_position_three, List.getD_cons_zero, List.getD_cons_succ]
  have hax : (if 1 < Ba then sa0 else 0) * p + sa1 * i + sa2 * k
      = (if 1 < Ba then p else 0) * sa0 + i * sa1 + k * sa2 := by
    by_cases hBa : 1 < Ba
    · rw [if_pos hBa, if_pos hBa]; ring
    · rw [if_neg hBa, if_neg hBa]; ring
  have hbx : (if 1 < Bb then sb0 else 0) * p + sb1 * k + sb2 * j
      = (if 1 < Bb then p else 0) * sb0 + k * sb1 + j * sb2 := by
    by_cases hBb : 1 < Bb
    · rw [if_pos hBb, if_pos hBb]; ring
    · rw [if_neg hBb, if_neg hBb]; ring
  rw [hax, hbx]

/-- **C2**: for 3D views `a : (Ba, M, K)` and `b : (Bb, K, N)` with equal
or broadcastable (size-1) batch sizes, `matrix_multiply` returns a
`(max Ba Bb, M, N)` tensor with
`out[p,i,j] = Σ_{k<K} a[p if Ba>1 else 0, i, k] * b[p if Bb>1 else 0, k, j]`
(a size-1 batch is aliased via a zero batch stride), exactly — the
out-of-bound tile loads are substituted with 0 and never corrupt the
sum, whatever the remainders of `K`, `M`, `N` modulo the 32-wide tile. -/
theorem claim_C2_matmul (a b : TensorView)
    (Ba M K Bb N sa0 sa1 sa2 sb0 sb1 sb2 : ℕ)
    (ha : a.shape = [Ba, M, K]) (hb : b.shape = [Bb, K, N])
    (hsa : a.strides = [sa0, sa1, sa2]) (hsb : b.strides = [sb0, sb1, sb2])
    (hbatch : Ba = Bb ∨ Ba = 1 ∨ Bb = 1) :
    ∃ out, matrix_multiply a b = some out ∧
      out.shape = [max Ba Bb, M, N] ∧
      ∀ p i j, p < max Ba Bb → i < M → j < N →
        elemAt out [p, i, j] =
          ((List.range K).map (fun k =>
            elemAt a [if 1 < Ba then p else 0, i, k] *
              elemAt b [if 1 < Bb then p else 0, k, j])).sum := by
  have hva : viewAs3d a = a := by
    unfold viewAs3d
    rw [ha, if_neg (by simp)]
  have hvb : viewAs3d b = b := by
    unfold viewAs3d
    rw [hb, if_neg (by simp)]
  have hms : mmOutShape a b = some [max Ba Bb, M, N] := by
    unfold mmOutShape
    rw [ha, hb]
    simp only [List.length_cons, List.length_nil]
    norm_num
    rw [shape_broadcast_single Ba Bb hbatch]
    simp
  have hmm : matrix_multiply a b
      = some (mmRun a b [max Ba Bb, M, N]) := by
    unfold matrix_multiply
    rw [hva, hvb, hms]
    show (if a.shape.getD (a.shape.length - 1) 0
          = b.shape.getD (b.shape.length - 2) 0 then
        if a.shape.length = 2 ∧ b.shape.length = 2 then _ else _
      else none) = _
    rw [ha, hb]
    simp only [List.length_cons, List.length_nil]
    norm_num
  refine ⟨mmRun a b [max Ba Bb, M, N], hmm, rfl, ?_⟩
  intro p i j hp hi hj
  have hcv : List.Forall₂ (· < ·) [p, i, j] [max Ba Bb, M, N] :=
    List.Forall₂.cons hp (List.Forall₂.cons hi
      (List.Forall₂.cons hj List.Forall₂.nil))
  have hpos : index_to_position [p, i, j]
      (contiguous_strides [max Ba Bb, M, N])
      < ([max Ba Bb, M, N] : List ℕ).prod := index_to_position_lt hcv
  show (mmRun a b [max Ba Bb, M, N]).storage.getD
      (index_to_position [p, i, j]
        (contiguous_strides [max Ba Bb, M, N])) 0 = _
  unfold mmRun
  apply runWrites_getD
  · rw [List.length_replicate]
    exact hpos
  · intro y hy w hw
    rw [show (([max Ba Bb, M, N] : List ℕ).getD 0 0) = max Ba Bb from rfl,
      show (([max Ba Bb, M, N] : List ℕ).getD 1 0) = M from rfl,
      show (([max Ba Bb, M, N] : List ℕ).getD 2 0) = N from rfl] at hy
    rw [mmThreadWrite_eq a.storage a.shape a.strides b.storage b.shape
      b.strides (max Ba Bb) M N y] at hw
    by_cases hcond : y.1 < max Ba Bb ∧ y.2.1 < M ∧ y.2.2 < N
    · rw [if_pos hcond] at hw
      have hpair := Option.some.inj hw
      have hyv : List.Forall₂ (· < ·) [y.1, y.2.1, y.2.2]
          [max Ba Bb, M, N] :=
        List.Forall₂.cons hcond.1 (List.Forall₂.cons hcond.2.1
          (List.Forall₂.cons hcond.2.2 List.Forall₂.nil))
      have hpeq : index_to_position [y.1, y.2.1, y.2.2]
          (contiguous_strides [max Ba Bb, M, N])
          = index_to_position [p, i, j]
            (contiguous_strides [max Ba Bb, M, N]) :=
        congrArg Prod.fst hpair
      have hceq : ([y.1, y.2.1, y.2.2] : List ℕ) = [p, i, j] :=
        index_to_position_inj hyv hcv hpeq
      simp only [List.cons.injEq, and_true] at hceq
      have hwv : mmAccum a.storage a.shape a.strides b.storage b.shape
          b.strides y.1 y.2.1 y.2.2 = w := congrArg Prod.snd hpair
      rw [← hwv, hceq.1, hceq.2.1, hceq.2.2,
        mmAccum_eq a b Ba M K Bb N sa0 sa1 sa2 sb0 sb1 sb2 ha hb hsa hsb
          p i j hi hj]
    · rw [if_neg hcond] at hw
      exact Option.noConfusion hw
  · refine ⟨(p, i, j), ?_, mmAccum a.storage a.shape a.strides b.storage
      b.shape b.strides p i j, ?_⟩
    · rw [show (([max Ba Bb, M, N] : List ℕ).getD 0 0) = max Ba Bb from rfl,
        show (([max Ba Bb, M, N] : List ℕ).getD 1 0) = M from rfl,
        show (([max Ba Bb, M, N] : List ℕ).getD 2 0) = N from rfl]
      exact (mem_mmGrid (max Ba Bb) (gridSize M) (gridSize N) p i j).mpr
        ⟨hp, lt_of_lt_of_le hi (le_gridSize M),
          lt_of_lt_of_le hj (le_gridSize N)⟩
    · rw [mmThreadWrite_eq a.storage a.shape a.strides b.storage b.shape
        b.strides (max Ba Bb) M N (p, i, j), if_pos ⟨hp, hi, hj⟩]

theorem claim_C2_matmul_witness :
    (∃ out, matrix_multiply ⟨[1, 2, 3, 4, 5], [1, 1, 5], [5, 5, 1]⟩
        ⟨[1, 1, 1, 1, 1], [1, 5, 1], [5, 1, 1]⟩ = some out ∧
      out.shape = [max 1 1, 1, 1] ∧
      ∀ p i j, p < max 1 1 → i < 1 → j < 1 →
        elemAt out [p, i, j] =
          ((List.range 5).map (fun k =>
            elemAt ⟨[1, 2, 3, 4, 5], [1, 1, 5], [5, 5, 1]⟩
                [if 1 < 1 then p else 0, i, k] *
              elemAt ⟨[1, 1, 1, 1, 1], [1, 5, 1], [5, 1, 1]⟩
                [if 1 < 1 then p else 0, k, j])).sum) ∧
    ((List.range 5).map (fun k =>
      elemAt (⟨[1, 2, 3, 4, 5], [1, 1, 5], [5, 5, 1]⟩ : TensorView)
          [if 1 < 1 then 0 else 0, 0, k] *
        elemAt (⟨[1, 1, 1, 1, 1], [1, 5, 1], [5, 1, 1]⟩ : TensorView)
          [if 1 < 1 then 0 else 0, k, 0])).sum = 15 := by
  constructor
  · exact claim_C2_matmul _ _ 1 1 5 1 1 5 5 1 5 1 1 rfl rfl rfl rfl
      (Or.inl rfl)
  · norm_num [elemAt, index_to_position, List.range_succ]

/-- **C7**: 2D matmul operands are normalized to one implicit batch before
dispatch, and the batch dimension is dropped from the result exactly when
both operands were 2D: `(M,K) × (K,N)` gives a 2D `(M,N)`, while a mixed
2D/3D pair keeps its 3D `(batch, M, N)` result. -/
theorem claim_C7_matmul_rank (a b : TensorView) (M K N Bb : ℕ) :
    (a.shape = [M, K] → b.shape = [K, N] →
      ∃ out, matrix_multiply a b = some out ∧ out.shape = [M, N]) ∧
    (a.shape = [M, K] → b.shape = [Bb, K, N] → 0 < Bb →
      ∃ out, matrix_multiply a b = some out ∧ out.shape = [Bb, M, N]) ∧
    (a.shape = [Bb, M, K] → b.shape = [K, N] → 0 < Bb →
      ∃ out, matrix_multiply a b = some out ∧ out.shape = [Bb, M, N]) := by
  refine ⟨?_, ?_, ?_⟩
  · intro ha hb
    have hva : viewAs3d a
        = ⟨contiguousStorage a, 1 :: a.shape, contiguous_strides (1 :: a.shape)⟩ := by
      unfold viewAs3d
      rw [if_pos (by rw [ha]; rfl)]
    have hvb : viewAs3d b
        = ⟨contiguousStorage b, 1 :: b.shape, contiguous_strides (1 :: b.shape)⟩ := by
      unfold viewAs3d
      rw [if_pos (by rw [hb]; rfl)]
    have hms : mmOutShape (viewAs3d a) (viewAs3d b) = some [1, M, N] := by
      rw [hva, hvb]
      unfold mmOutShape
      rw [ha, hb]
      rw [show shape_broadcast (([1, M, K] : List ℕ).take
          (([1, M, K] : List ℕ).length - 2))
          (([1, K, N] : List ℕ).take (([1, K, N] : List ℕ).length - 2))
          = some [1] from shape_broadcast_single 1 1 (Or.inl rfl)]
      rfl
    unfold matrix_multiply
    rw [hms, hva, hvb, ha, hb]
    dsimp only
    rw [if_pos (show ([1, M, K] : List ℕ).getD (([1, M, K] : List ℕ).length - 1) 0
        = ([1, K, N] : List ℕ).getD (([1, K, N] : List ℕ).length - 2) 0 from rfl)]
    rw [if_pos (show ([M, K] : List ℕ).length = 2 ∧ ([K, N] : List ℕ).length = 2
        from ⟨rfl, rfl⟩)]
    exact ⟨_, rfl, rfl⟩
  · intro ha hb hB
    have hva : viewAs3d a
        = ⟨contiguousStorage a, 1 :: a.shape, contiguous_strides (1 :: a.shape)⟩ := by
      unfold viewAs3d
      rw [if_pos (by rw [ha]; rfl)]
    have hvb : viewAs3d b = b := by
      unfold viewAs3d
      rw [if_neg (by rw [hb]; simp)]
    have hbc : shape_broadcast [1] [Bb] = some [Bb] := by
      rw [shape_broadcast_single 1 Bb (Or.inr (Or.inl rfl))]
      rw [Nat.max_eq_right hB]
    have hms : mmOutShape (viewAs3d a) (viewAs3d b) = some [Bb, M, N] := by
      rw [hva, hvb]
      unfold mmOutShape
      rw [ha, hb]
      rw [show (((1 : ℕ) :: [M, K]).take ((((1 : ℕ) :: [M, K])).length - 2))
          = [1] from rfl]
      rw [show (([Bb, K, N] : List ℕ).take (([Bb, K, N] : List ℕ).length - 2))
          = [Bb] from rfl]
      rw [hbc]
      rfl
    unfold matrix_multiply
    rw [hms, hva, hvb, ha, hb]
    dsimp only
    rw [if_pos (show ([1, M, K] : List ℕ).getD (([1, M, K] : List ℕ).length - 1) 0
        = ([Bb, K, N] : List ℕ).getD (([Bb, K, N] : List ℕ).length - 2) 0 from rfl)]
    rw [if_neg (show ¬ (([M, K] : List ℕ).length = 2
        ∧ ([Bb, K, N] : List ℕ).length = 2) from fun h => by simp at h)]
    exact ⟨_, rfl, rfl⟩
  · intro ha hb hB
    have hva : viewAs3d a = a := by
      unfold viewAs3d
      rw [if_neg (by rw [ha]; simp)]
    have hvb : viewAs3d b
        = ⟨contiguousStorage b, 1 :: b.shape, contiguous_strides (1 :: b.shape)⟩ := by
      unfold viewAs3d
      rw [if_pos (by rw [hb]; rfl)]
    have hbc : shape_broadcast [Bb] [1] = some [Bb] := by
      rw [shape_broadcast_single Bb 1 (Or.inr (Or.inr rfl))]
      rw [Nat.max_eq_left hB]
    have hms : mmOutShape (viewAs3d a) (viewAs3d b) = some [Bb, M, N] := by
      rw [hva, hvb]
      unfold mmOutShape
      rw [ha, hb]
      rw [show (([Bb, M, K] : List ℕ).take (([Bb, M, K] : List ℕ).length - 2))
          = [Bb] from rfl]
      rw [show (((1 : ℕ) :: [K, N]).take ((((1 : ℕ) :: [K, N])).length - 2))
          = [1] from rfl]
      rw [hbc]
      rfl
    unfold matrix_multiply
    rw [hms, hva, hvb, ha, hb]
    dsimp only
    rw [if_pos (show ([Bb, M, K] : List ℕ).getD (([Bb, M, K] : List ℕ).length - 1) 0
        = ([1, K, N] : List ℕ).getD (([1, K, N] : List ℕ).length - 2) 0 from rfl)]
    rw [if_neg (show ¬ (([Bb, M, K] : List ℕ).length = 2
        ∧ ([K, N] : List ℕ).length = 2) from fun h => by simp at h)]
    exact ⟨_, rfl, rfl⟩

theorem claim_C7_matmul_rank_witness :
    (∃ out, matrix_multiply (⟨[0, 0, 0, 0, 0, 0], [2, 3], [3, 1]⟩ : TensorView)
      (⟨List.replicate 12 0, [3, 4], [4, 1]⟩ : TensorView) = some out ∧
      out.shape = [2, 4]) ∧
    (∃ out, matrix_multiply (⟨[0, 0, 0, 0, 0, 0], [2, 3], [3, 1]⟩ : TensorView)
      (⟨List.replicate 60 0, [5, 3, 4], [12, 4, 1]⟩ : TensorView) = some out ∧
      out.shape = [5, 2, 4]) ∧
    (∃ out, matrix_multiply
      (⟨List.replicate 30 0, [5, 2, 3], [6, 3, 1]⟩ : TensorView)
      (⟨List.replicate 12 0, [3, 4], [4, 1]⟩ : TensorView) = some out ∧
      out.shape = [5, 2, 4]) := by
  refine ⟨?_, ?_, ?_⟩
  · exact (claim_C7_matmul_rank ⟨[0, 0, 0, 0, 0, 0], [2, 3], [3, 1]⟩
      ⟨List.replicate 12 0, [3, 4], [4, 1]⟩ 2 3 4 5).1 rfl rfl
  · exact (claim_C7_matmul_rank ⟨[0, 0, 0, 0, 0, 0], [2, 3], [3, 1]⟩
      ⟨List.replicate 60 0, [5, 3, 4], [12, 4, 1]⟩ 2 3 4 5).2.1 rfl rfl
      (by decide)
  · exact (claim_C7_matmul_rank ⟨List.replicate 30 0, [5, 2, 3], [6, 3, 1]⟩
      ⟨List.replicate 12 0, [3, 4], [4, 1]⟩ 2 3 4 5).2.2 rfl rfl (by decide)

/-- **C8**: after 2D rank normalization, `matrix_multiply` asserts that
`a`'s trailing dimension equals `b`'s second-to-last dimension before
allocating any output or launching any kernel; on a mismatch the call
fails and no output tensor is produced (in the embedding, the assertion
failure is the `none` result, and the output-allocating branch is never
reached). -/
theorem claim_C8_matmul_assert (a b : TensorView)
    (hmis : (viewAs3d a).shape.getD ((viewAs3d a).shape.length - 1) 0 ≠
      (viewAs3d b).shape.getD ((viewAs3d b).shape.length - 2) 0) :
    matrix_multiply a b = none := by
  unfold matrix_multiply
  cases hms : mmOutShape (viewAs3d a) (viewAs3d b) with
  | none => rfl
  | some ls =>
    dsimp only
    rw [if_neg hmis]

theorem claim_C8_matmul_assert_witness :
    matrix_multiply (⟨[0, 0, 0, 0, 0, 0], [2, 3], [3, 1]⟩ : TensorView)
      (⟨List.replicate 20 0, [4, 5], [5, 1]⟩ : TensorView) = none :=
  claim_C8_matmul_assert _ _ (by decide)

end Minitorch
